import Mathlib

/-!
Verification development for the udp-chat server (src/lib.rs, src/server.rs).

The server-side state (`Users`, `User`), the wire protocol (`Packets`,
`MAX_PACKET_SIZE`), the registry event type (`Message`) and the event-loop
body (`step`) are shallowly embedded below.  The `HashMap<SocketAddr, User>`
of the source is modelled by an association list together with the
`Users.Nodupkeys` predicate (a `HashMap` never holds two entries for one
key); `std::time::Instant` is modelled by `Nat` (monotonic time, and
`Instant` subtraction saturates at zero exactly like `Nat` subtraction).
The serde_json text encoding of `Packets` is reproduced character by
character (compact rendering, externally tagged enum, string escaping) so
that the `MAX_PACKET_SIZE` comparison of `Users::send` is over the real
encoded byte count.
-/

set_option maxRecDepth 10000

/-- Transport endpoint identifier; models `std::net::SocketAddr`, which the
server only ever uses as an opaque equality-comparable key. -/
abbrev Addr := Nat

/-- Model of `LoginReqPacket` (src/lib.rs). -/
structure LoginReqPacket where
  name : String
deriving DecidableEq

/-- Model of `ChatReqPacket` (src/lib.rs). -/
structure ChatReqPacket where
  contents : String
deriving DecidableEq

/-- Model of `ChatNotifyPacket` (src/lib.rs). -/
structure ChatNotifyPacket where
  name : String
  contents : String
deriving DecidableEq

/-- Model of the wire enum `Packets` (src/lib.rs). -/
inductive Packets where
  | LoginReq (p : LoginReqPacket)
  | ChatReq (p : ChatReqPacket)
  | ChatNotify (p : ChatNotifyPacket)
  | Ping
deriving DecidableEq

/-- Model of `MAX_PACKET_SIZE` (src/lib.rs line 3). -/
def MAX_PACKET_SIZE : Nat := 2048

/-- JSON values, as far as the wire format needs them: the serde data model
image of `Packets` only contains strings and objects. -/
inductive Json where
  | str (s : String)
  | obj (fields : List (String × Json))

/-- The derived `Serialize` impl of `Packets`: serde's externally tagged
representation of each enum variant (a unit variant becomes a bare string). -/
def toJson : Packets → Json
  | .LoginReq p => .obj [("LoginReq", .obj [("name", .str p.name)])]
  | .ChatReq p => .obj [("ChatReq", .obj [("contents", .str p.contents)])]
  | .ChatNotify p =>
      .obj [("ChatNotify", .obj [("name", .str p.name), ("contents", .str p.contents)])]
  | .Ping => .str "Ping"

/-- The derived `Deserialize` impl of `Packets` on the serde data model:
recognises the externally tagged shape of each variant and fails (`none`,
serde's `MalformedMessage` outcome) on anything else. -/
def fromJson : Json → Option Packets
  | .str s => if s = "Ping" then some Packets.Ping else none
  | .obj [(tag, payload)] =>
      if tag = "LoginReq" then
        match payload with
        | .obj [(f, .str v)] => if f = "name" then some (.LoginReq ⟨v⟩) else none
        | _ => none
      else if tag = "ChatReq" then
        match payload with
        | .obj [(f, .str v)] => if f = "contents" then some (.ChatReq ⟨v⟩) else none
        | _ => none
      else if tag = "ChatNotify" then
        match payload with
        | .obj [(f1, .str v1), (f2, .str v2)] =>
            if f1 = "name" then
              if f2 = "contents" then some (.ChatNotify ⟨v1, v2⟩) else none
            else none
        | _ => none
      else none
  | _ => none

/-- Lower-case hexadecimal digit, as serde_json prints in `\uXXXX` escapes. -/
def hexDigit (n : Nat) : Char :=
  if n < 10 then Char.ofNat (48 + n) else Char.ofNat (87 + n)

/-- serde_json's escaping of one character inside a JSON string: quote and
backslash get two-character escapes, the five named control characters get
their short escapes, the remaining control characters below 0x20 get a
`\u00XX` escape, and every other character (ASCII or not) is emitted as is. -/
def escapeChar (c : Char) : List Char :=
  if c = '"' then ['\\', '"']
  else if c = '\\' then ['\\', '\\']
  else if c = Char.ofNat 8 then ['\\', 'b']
  else if c = Char.ofNat 9 then ['\\', 't']
  else if c = Char.ofNat 10 then ['\\', 'n']
  else if c = Char.ofNat 12 then ['\\', 'f']
  else if c = Char.ofNat 13 then ['\\', 'r']
  else if c.toNat < 32 then
    ['\\', 'u', '0', '0', hexDigit (c.toNat / 16), hexDigit (c.toNat % 16)]
  else [c]

/-- serde_json's escaping of a whole character sequence. -/
def escapeList : List Char → List Char
  | [] => []
  | c :: rest => escapeChar c ++ escapeList rest

/-- A JSON string literal: escaped contents between double quotes. -/
def quoteChars (s : String) : List Char :=
  '"' :: (escapeList s.toList ++ ['"'])

/-- The exact character sequence `serde_json::to_string` produces for each
`Packets` value (compact rendering, struct fields in declaration order). -/
def encodeChars : Packets → List Char
  | .LoginReq p =>
      "\x7b\"LoginReq\":\x7b\"name\":".toList ++ (quoteChars p.name ++ "\x7d\x7d".toList)
  | .ChatReq p =>
      "\x7b\"ChatReq\":\x7b\"contents\":".toList ++ (quoteChars p.contents ++ "\x7d\x7d".toList)
  | .ChatNotify p =>
      "\x7b\"ChatNotify\":\x7b\"name\":".toList ++
        (quoteChars p.name ++ (",\"contents\":".toList ++ (quoteChars p.contents ++ "\x7d\x7d".toList)))
  | .Ping => "\"Ping\"".toList

/-- The serde_json text encoding of a packet as a string. -/
def to_string (p : Packets) : String := String.mk (encodeChars p)

/-- UTF-8 byte count of a character sequence; `str.as_bytes().len()` in the
source is exactly this over the encoded characters. -/
def utf8Len : List Char → Nat
  | [] => 0
  | c :: rest => c.utf8Size + utf8Len rest

/-- The encoded byte size of a packet, the quantity the source compares
against `MAX_PACKET_SIZE`. -/
def encodedSize (p : Packets) : Nat := utf8Len (encodeChars p)

/-- Model of `User` (src/server.rs lines 82-85): display name plus the
`Instant` of the most recent liveness signal. -/
structure User where
  name : String
  last_ping : Nat
deriving DecidableEq

/-- Model of `User::EXPIRED` (src/server.rs line 88), in seconds. -/
def User.EXPIRED : Nat := 5

/-- Model of `User::new` (src/server.rs lines 90-95); the source stamps
`Instant::now()`, which the embedding passes in as `now`. -/
def User.new (name : String) (now : Nat) : User := ⟨name, now⟩

/-- Model of `User::update_ping` (src/server.rs lines 97-99). -/
def User.update_ping (u : User) (now : Nat) : User := ⟨u.name, now⟩

/-- Model of `User::is_expired` (src/server.rs lines 101-104): the elapsed
duration strictly exceeds the five second threshold. -/
def User.is_expired (u : User) (now : Nat) : Bool :=
  decide (User.EXPIRED < now - u.last_ping)

/-- `HashMap::get` on the association-list model. -/
def findUser : List (Addr × User) → Addr → Option User
  | [], _ => none
  | e :: rest, addr => if e.1 = addr then some e.2 else findUser rest addr

/-- `HashMap::insert` on the association-list model: replaces the entry for
an existing key, otherwise appends a fresh entry. -/
def insertUser : List (Addr × User) → Addr → User → List (Addr × User)
  | [], addr, u => [(addr, u)]
  | e :: rest, addr, u =>
      if e.1 = addr then (addr, u) :: rest else e :: insertUser rest addr u

/-- `HashMap::remove` on the association-list model. -/
def eraseUser : List (Addr × User) → Addr → List (Addr × User)
  | [], _ => []
  | e :: rest, addr =>
      if e.1 = addr then eraseUser rest addr else e :: eraseUser rest addr

/-- `HashMap::get_mut` followed by `User::update_ping` on the model:
refreshes the liveness stamp of the entry at `addr` if there is one. -/
def updatePingL : List (Addr × User) → Addr → Nat → List (Addr × User)
  | [], _, _ => []
  | e :: rest, addr, now =>
      if e.1 = addr then (e.1, e.2.update_ping now) :: rest
      else e :: updatePingL rest addr now

/-- `HashMap::retain` with the predicate `!v.is_expired(now)`
(src/server.rs line 35). -/
def retainLive : List (Addr × User) → Nat → List (Addr × User)
  | [], _ => []
  | e :: rest, now =>
      if e.2.is_expired now then retainLive rest now else e :: retainLive rest now

/-- Model of `Users` (src/server.rs lines 8-10). -/
structure Users where
  users : List (Addr × User)
deriving DecidableEq

/-- The `HashMap` representation invariant: no two entries share a key. -/
abbrev Users.Nodupkeys (us : Users) : Prop := (us.users.map Prod.fst).Nodup

/-- Model of `Users::new` (src/server.rs lines 13-17). -/
def Users.new : Users := ⟨[]⟩

/-- Model of `Users::add_user` (src/server.rs lines 19-21). -/
def Users.add_user (us : Users) (addr : Addr) (name : String) (now : Nat) : Users :=
  ⟨insertUser us.users addr (User.new name now)⟩

/-- Model of `Users::remove_user` (src/server.rs lines 23-25). -/
def Users.remove_user (us : Users) (addr : Addr) : Users :=
  ⟨eraseUser us.users addr⟩

/-- Model of `Users::get_name` (src/server.rs lines 27-29). -/
def Users.get_name (us : Users) (addr : Addr) : Option String :=
  (findUser us.users addr).map (fun u => u.name)

/-- Model of `Users::ping_received` (src/server.rs lines 51-55). -/
def Users.ping_received (us : Users) (addr : Addr) (now : Nat) : Users :=
  ⟨updatePingL us.users addr now⟩

/-- One outbound datagram: destination address and the packet carried. -/
structure Datagram where
  dst : Addr
  packet : Packets
deriving DecidableEq

/-- Outcome of `Users::send`: either the datagrams that were sent, or the
oversized-packet refusal (the `eprintln` branch), which transmits nothing. -/
inductive SendOutcome where
  | sent (dgrams : List Datagram)
  | oversized (size : Nat)
deriving DecidableEq

/-- The datagrams actually put on the wire by a send outcome. -/
def SendOutcome.datagrams : SendOutcome → List Datagram
  | .sent l => l
  | .oversized _ => []

/-- Model of `Users::send` (src/server.rs lines 57-79): build the
`ChatNotify` packet, refuse it whole if its encoding is not strictly below
`MAX_PACKET_SIZE`, otherwise unicast it to every registered address. -/
def Users.send (us : Users) (name contents : String) : SendOutcome :=
  let packet := Packets.ChatNotify ⟨name, contents⟩
  if MAX_PACKET_SIZE ≤ encodedSize packet then
    .oversized (encodedSize packet)
  else
    .sent (us.users.map (fun e => ⟨e.1, packet⟩))

/-- Model of `Users::tick` (src/server.rs lines 31-49): first drop every
expired entry, then send one `Ping` to each remaining entry's address. -/
def Users.tick (us : Users) (now : Nat) : Users × List Datagram :=
  let remaining := retainLive us.users now
  (⟨remaining⟩, remaining.map (fun e => ⟨e.1, Packets.Ping⟩))

/-- Model of the registry event enum `Message` (src/server.rs lines 107-114). -/
inductive Message where
  | Login (addr : Addr) (name : String)
  | Chat (addr : Addr) (contents : String)
  | Logout (addr : Addr)
  | PingReceived (addr : Addr)
  | Tick
deriving DecidableEq

/-- The body of the registry event loop (src/server.rs lines 127-148): the
state transition and the datagrams emitted for one consumed event. -/
def step (us : Users) (now : Nat) : Message → Users × List Datagram
  | .Login addr name => (us.add_user addr name now, [])
  | .Logout addr => (us.remove_user addr, [])
  | .Chat addr contents =>
      match us.get_name addr with
      | some name => (us, (us.send name contents).datagrams)
      | none => (us, [])
  | .PingReceived addr => (us.ping_received addr now, [])
  | .Tick => us.tick now

/-- Run the registry from a given table over a time-stamped event sequence. -/
def processFrom (us : Users) (tr : List (Nat × Message)) : Users :=
  tr.foldl (fun u e => (step u e.1 e.2).1) us

/-- Run the registry from the empty table over a time-stamped event
sequence, keeping only the final session table. -/
def processTrace (tr : List (Nat × Message)) : Users :=
  processFrom Users.new tr

/-- Spec-side liveness tracker for a single address, transcribed from the
spec's transition table (section 4.4): a login (re)starts the liveness
clock, a logout for the address kills it, a liveness ping refreshes it when
it is running, a timer tick kills it when the elapsed time strictly exceeds
the expiry threshold, and chat events leave it untouched.  The tracked
value is `some` of the last liveness time while the address has an
unevicted, unexpired login with no subsequent logout, and `none` otherwise. -/
def specTrack (addr : Addr) (s : Option Nat) : Nat × Message → Option Nat
  | (t, .Login a _) => if a = addr then some t else s
  | (_, .Logout a) => if a = addr then none else s
  | (_, .Chat _ _) => s
  | (t, .PingReceived a) => if a = addr then s.map (fun _ => t) else s
  | (t, .Tick) => s.bind (fun l => if User.EXPIRED < t - l then none else some l)

/-- Spec-side characterisation of table membership after a trace: the
address currently has an unevicted, unexpired login with no later logout. -/
def specAlive (addr : Addr) (tr : List (Nat × Message)) : Bool :=
  (tr.foldl (specTrack addr) none).isSome

/-- The ingress loop's translation of one received datagram into a registry
event (src/server.rs lines 160-205).  `size` is the received byte count and
`decoded` the outcome of `serde_json::from_slice` on the received bytes: a
zero-length datagram is a disconnect signal (checked before decoding),
undecodable bytes produce no event, the three client-to-server variants map
one-to-one to events, and the remaining decodable variant (`ChatNotify`)
falls into the catch-all arm and produces no event. -/
def ingressEvent (client : Addr) (size : Nat) (decoded : Option Packets) : Option Message :=
  if size = 0 then some (.Logout client)
  else
    match decoded with
    | none => none
    | some (.LoginReq p) => some (.Login client p.name)
    | some (.ChatReq p) => some (.Chat client p.contents)
    | some .Ping => some (.PingReceived client)
    | some (.ChatNotify _) => none

/-- The byte count `recv_from` reports when a datagram of length
`dgram.length` arrives at a buffer of `bufLen` bytes: a datagram socket
delivers at most the buffer's capacity and discards the rest. -/
def recv_from (bufLen : Nat) (dgram : List Nat) : Nat :=
  min dgram.length bufLen

/-- The slice `&buf[..size]` the ingress loop hands to the decoder
(src/server.rs lines 161-180), for a receive buffer of exactly
`MAX_PACKET_SIZE` bytes. -/
def readSlice (dgram : List Nat) : List Nat :=
  dgram.take (recv_from MAX_PACKET_SIZE dgram)

/-- A chat text long enough that its `ChatNotify` encoding must exceed
`MAX_PACKET_SIZE`. -/
def bigText : String := String.mk (List.replicate 2100 'a')

/-- A one-session table: address 0 logged in as "a" at time 0. -/
def cexUsers : Users := ⟨[(0, ⟨"a", 0⟩)]⟩

/-- A two-session table: at time 10, address 0 (last liveness 0) is stale
and address 1 (last liveness 8) is fresh. -/
def wUsers : Users := ⟨[(0, ⟨"a", 0⟩), (1, ⟨"b", 8⟩)]⟩

/-- A two-session table with distinct names, for broadcast witnesses. -/
def twoUsers : Users := ⟨[(0, ⟨"alice", 0⟩), (1, ⟨"bob", 0⟩)]⟩

/-! ### Lookup behaviour of the table operations -/

theorem findUser_insertUser (l : List (Addr × User)) (a : Addr) (v : User) (x : Addr) :
    findUser (insertUser l a v) x = if x = a then some v else findUser l x := by
  induction l with
  | nil =>
      by_cases h : x = a
      · subst h; simp [insertUser, findUser]
      · simp [insertUser, findUser, h, Ne.symm h]
  | cons e rest ih =>
      by_cases he : e.1 = a
      · subst he
        by_cases h : x = e.1
        · subst h; simp [insertUser, findUser]
        · simp [insertUser, findUser, h, Ne.symm h]
      · by_cases h : x = a
        · subst h
          simp [insertUser, findUser, he, ih]
        · by_cases hex : e.1 = x
          · subst hex
            simp [insertUser, findUser, he, h]
          · simp [insertUser, findUser, he, hex, ih, h]

theorem findUser_eraseUser (l : List (Addr × User)) (a : Addr) (x : Addr) :
    findUser (eraseUser l a) x = if x = a then none else findUser l x := by
  induction l with
  | nil =>
      by_cases h : x = a <;> simp [eraseUser, findUser, h]
  | cons e rest ih =>
      by_cases he : e.1 = a
      · subst he
        rw [(by simp [eraseUser] : eraseUser (e :: rest) e.1 = eraseUser rest e.1)]
        by_cases h : x = e.1
        · subst h; simp [findUser, ih]
        · simp [findUser, ih, h, Ne.symm h]
      · rw [(by simp [eraseUser, he] : eraseUser (e :: rest) a = e :: eraseUser rest a)]
        by_cases hex : e.1 = x
        · subst hex
          simp [findUser, he]
        · simp [findUser, hex, ih]

theorem findUser_updatePingL (l : List (Addr × User)) (a : Addr) (now : Nat) (x : Addr) :
    findUser (updatePingL l a now) x =
      if x = a then (findUser l x).map (fun u => u.update_ping now)
      else findUser l x := by
  induction l with
  | nil =>
      by_cases h : x = a <;> simp [updatePingL, findUser, h]
  | cons e rest ih =>
      by_cases he : e.1 = a
      · subst he
        rw [(by simp [updatePingL] :
          updatePingL (e :: rest) e.1 now = (e.1, e.2.update_ping now) :: rest)]
        by_cases h : x = e.1
        · subst h; simp [findUser]
        · simp [findUser, h, Ne.symm h]
      · rw [(by simp [updatePingL, he] :
          updatePingL (e :: rest) a now = e :: updatePingL rest a now)]
        by_cases hex : e.1 = x
        · subst hex
          simp [findUser, he]
        · simp [findUser, hex, ih]

theorem findUser_eq_none_of_not_mem (l : List (Addr × User)) (x : Addr)
    (h : x ∉ l.map Prod.fst) : findUser l x = none := by
  induction l with
  | nil => simp [findUser]
  | cons e rest ih =>
      simp only [List.map_cons, List.mem_cons, not_or] at h
      simp [findUser, Ne.symm h.1, ih h.2]

theorem findUser_isSome_iff_mem (l : List (Addr × User)) (x : Addr) :
    (findUser l x).isSome = true ↔ x ∈ l.map Prod.fst := by
  induction l with
  | nil => simp [findUser]
  | cons e rest ih =>
      by_cases he : e.1 = x
      · subst he
        simp [findUser]
      · simp [findUser, he, Ne.symm he, ih]

/-! ### Structural facts: sublists, keys, no-duplicate-keys preservation -/

theorem retainLive_sublist (l : List (Addr × User)) (now : Nat) :
    (retainLive l now).Sublist l := by
  induction l with
  | nil => simp [retainLive]
  | cons e rest ih =>
      by_cases he : e.2.is_expired now
      · rw [(by simp [retainLive, he] : retainLive (e :: rest) now = retainLive rest now)]
        exact ih.cons e
      · rw [(by simp [retainLive, he] : retainLive (e :: rest) now = e :: retainLive rest now)]
        exact ih.cons₂ e

theorem eraseUser_sublist (l : List (Addr × User)) (a : Addr) :
    (eraseUser l a).Sublist l := by
  induction l with
  | nil => simp [eraseUser]
  | cons e rest ih =>
      by_cases he : e.1 = a
      · rw [(by simp [eraseUser, he] : eraseUser (e :: rest) a = eraseUser rest a)]
        exact ih.cons e
      · rw [(by simp [eraseUser, he] : eraseUser (e :: rest) a = e :: eraseUser rest a)]
        exact ih.cons₂ e

theorem mem_keys_insertUser (l : List (Addr × User)) (a : Addr) (v : User) (x : Addr) :
    x ∈ (insertUser l a v).map Prod.fst ↔ x ∈ l.map Prod.fst ∨ x = a := by
  induction l with
  | nil => simp [insertUser]
  | cons e rest ih =>
      by_cases he : e.1 = a
      · subst he
        rw [(by simp [insertUser] : insertUser (e :: rest) e.1 v = (e.1, v) :: rest)]
        simp only [List.map_cons, List.mem_cons]
        tauto
      · rw [(by simp [insertUser, he] : insertUser (e :: rest) a v = e :: insertUser rest a v)]
        simp only [List.map_cons, List.mem_cons, ih]
        tauto

theorem nodup_insertUser (l : List (Addr × User)) (a : Addr) (v : User)
    (h : (l.map Prod.fst).Nodup) : ((insertUser l a v).map Prod.fst).Nodup := by
  induction l with
  | nil => simp [insertUser]
  | cons e rest ih =>
      simp only [List.map_cons, List.nodup_cons] at h
      by_cases he : e.1 = a
      · subst he
        rw [(by simp [insertUser] : insertUser (e :: rest) e.1 v = (e.1, v) :: rest)]
        simp only [List.map_cons, List.nodup_cons]
        exact ⟨h.1, h.2⟩
      · rw [(by simp [insertUser, he] : insertUser (e :: rest) a v = e :: insertUser rest a v)]
        simp only [List.map_cons, List.nodup_cons]
        refine ⟨?_, ih h.2⟩
        intro hmem
        rcases (mem_keys_insertUser rest a v e.1).mp hmem with hm | hm
        · exact h.1 hm
        · exact he hm

theorem keys_updatePingL (l : List (Addr × User)) (a : Addr) (now : Nat) :
    (updatePingL l a now).map Prod.fst = l.map Prod.fst := by
  induction l with
  | nil => simp [updatePingL]
  | cons e rest ih =>
      by_cases he : e.1 = a
      · rw [(by simp [updatePingL, he] :
          updatePingL (e :: rest) a now = (e.1, e.2.update_ping now) :: rest)]
        simp
      · rw [(by simp [updatePingL, he] :
          updatePingL (e :: rest) a now = e :: updatePingL rest a now)]
        simp [ih]

theorem step_nodupkeys (us : Users) (now : Nat) (m : Message)
    (h : us.Nodupkeys) : (step us now m).1.Nodupkeys := by
  cases m with
  | Login addr name =>
      exact nodup_insertUser us.users addr (User.new name now) h
  | Logout addr =>
      exact List.Nodup.sublist ((eraseUser_sublist us.users addr).map Prod.fst) h
  | Chat addr contents =>
      cases hg : us.get_name addr <;> simpa [step, hg] using h
  | PingReceived addr =>
      show ((updatePingL us.users addr now).map Prod.fst).Nodup
      rw [keys_updatePingL]
      exact h
  | Tick =>
      exact List.Nodup.sublist ((retainLive_sublist us.users now).map Prod.fst) h

theorem findUser_retainLive (l : List (Addr × User)) (now : Nat) (x : Addr)
    (h : (l.map Prod.fst).Nodup) :
    findUser (retainLive l now) x =
      (findUser l x).bind (fun u => if u.is_expired now then none else some u) := by
  induction l with
  | nil => simp [retainLive, findUser]
  | cons e rest ih =>
      simp only [List.map_cons, List.nodup_cons] at h
      by_cases he : e.1 = x
      · subst he
        by_cases hx : e.2.is_expired now
        · rw [(by simp [retainLive, hx] : retainLive (e :: rest) now = retainLive rest now)]
          have hnone : findUser (retainLive rest now) e.1 = none := by
            refine findUser_eq_none_of_not_mem _ _ ?_
            intro hmem
            exact h.1 (((retainLive_sublist rest now).map Prod.fst).subset hmem)
          simp [findUser, hnone, hx]
        · rw [(by simp [retainLive, hx] : retainLive (e :: rest) now = e :: retainLive rest now)]
          simp [findUser, hx]
      · by_cases hx : e.2.is_expired now
        · rw [(by simp [retainLive, hx] : retainLive (e :: rest) now = retainLive rest now)]
          simp [findUser, he, ih h.2]
        · rw [(by simp [retainLive, hx] : retainLive (e :: rest) now = e :: retainLive rest now)]
          simp [findUser, he, ih h.2]

/-! ### The per-address liveness projection of one registry step -/

theorem lastPing_step (us : Users) (h : us.Nodupkeys) (t : Nat) (m : Message) (addr : Addr) :
    (findUser (step us t m).1.users addr).map User.last_ping
      = specTrack addr ((findUser us.users addr).map User.last_ping) (t, m) := by
  cases m with
  | Login a name =>
      show (findUser (insertUser us.users a (User.new name t)) addr).map User.last_ping = _
      rw [findUser_insertUser]
      by_cases hx : addr = a
      · subst hx
        simp [specTrack, User.new, User.last_ping]
      · simp [specTrack, hx, Ne.symm hx]
  | Logout a =>
      show (findUser (eraseUser us.users a) addr).map User.last_ping = _
      rw [findUser_eraseUser]
      by_cases hx : addr = a
      · subst hx
        simp [specTrack]
      · simp [specTrack, hx, Ne.symm hx]
  | Chat a contents =>
      cases hg : us.get_name a <;> simp [step, hg, specTrack]
  | PingReceived a =>
      show (findUser (updatePingL us.users a t) addr).map User.last_ping = _
      rw [findUser_updatePingL]
      by_cases hx : addr = a
      · subst hx
        cases hf : findUser us.users addr <;>
          simp [specTrack, hf, User.update_ping]
      · simp [specTrack, hx, Ne.symm hx]
  | Tick =>
      show (findUser (retainLive us.users t) addr).map User.last_ping = _
      rw [findUser_retainLive us.users t addr h]
      cases hf : findUser us.users addr with
      | none => simp [specTrack]
      | some u =>
          by_cases hx : u.is_expired t
          · have hp : User.EXPIRED < t - u.last_ping := by
              simpa [User.is_expired] using hx
            simp [specTrack, hx, hp]
          · have hp : ¬User.EXPIRED < t - u.last_ping := by
              simpa [User.is_expired] using hx
            simp [specTrack, hx, hp]

/-- The liveness projection carried through a whole trace: running the
registry and running the spec-side tracker from matching seeds agree. -/
theorem lastPing_processFrom (tr : List (Nat × Message)) (us : Users)
    (h : us.Nodupkeys) (addr : Addr) :
    (findUser (processFrom us tr).users addr).map User.last_ping
      = tr.foldl (specTrack addr) ((findUser us.users addr).map User.last_ping) := by
  induction tr generalizing us with
  | nil => simp [processFrom]
  | cons e tr ih =>
      have hstep := lastPing_step us h e.1 e.2 addr
      have hwf := step_nodupkeys us e.1 e.2 h
      calc (findUser (processFrom us (e :: tr)).users addr).map User.last_ping
          = (findUser (processFrom (step us e.1 e.2).1 tr).users addr).map User.last_ping := by
            simp [processFrom]
        _ = tr.foldl (specTrack addr)
              ((findUser (step us e.1 e.2).1.users addr).map User.last_ping) := ih _ hwf
        _ = tr.foldl (specTrack addr)
              (specTrack addr ((findUser us.users addr).map User.last_ping) (e.1, e.2)) := by
            rw [hstep]
        _ = (e :: tr).foldl (specTrack addr)
              ((findUser us.users addr).map User.last_ping) := by
            simp [List.foldl_cons]

/-! ### Counting broadcast datagrams -/

theorem count_map_datagram (l : List (Addr × User)) (pk : Packets) (a : Addr) :
    (l.map (fun e => Datagram.mk e.1 pk)).count ⟨a, pk⟩ = (l.map Prod.fst).count a := by
  induction l with
  | nil => simp
  | cons e rest ih =>
      by_cases he : e.1 = a
      · subst he
        simp [List.count_cons, ih]
      · simp [List.count_cons, ih, he, Datagram.mk.injEq]

theorem count_keys_of_nodup (l : List Addr) (a : Addr) (h : l.Nodup) :
    l.count a = if a ∈ l then 1 else 0 := by
  by_cases hm : a ∈ l
  · simp [hm, List.count_eq_one_of_mem h hm]
  · simp [hm, List.count_eq_zero_of_not_mem hm]

/-! ### Size facts about the serde_json encoding -/

theorem utf8Len_append (l1 l2 : List Char) :
    utf8Len (l1 ++ l2) = utf8Len l1 + utf8Len l2 := by
  induction l1 with
  | nil => simp [utf8Len]
  | cons c rest ih => simp [utf8Len, ih]; omega

theorem le_utf8Len_append_left (l1 l2 : List Char) : utf8Len l2 ≤ utf8Len (l1 ++ l2) := by
  rw [utf8Len_append]; omega

theorem le_utf8Len_append_right (l1 l2 : List Char) : utf8Len l1 ≤ utf8Len (l1 ++ l2) := by
  rw [utf8Len_append]; omega

theorem le_utf8Len_cons (c : Char) (l : List Char) : utf8Len l ≤ utf8Len (c :: l) := by
  have h := Char.utf8Size_pos c
  simp only [utf8Len]
  omega

theorem one_le_utf8Len_cons (c : Char) (l : List Char) : 1 ≤ utf8Len (c :: l) := by
  have h := Char.utf8Size_pos c
  simp only [utf8Len]
  omega

theorem one_le_utf8Len_escapeChar (c : Char) : 1 ≤ utf8Len (escapeChar c) := by
  unfold escapeChar
  split_ifs <;> exact one_le_utf8Len_cons _ _

theorem length_le_utf8Len_escapeList (l : List Char) :
    l.length ≤ utf8Len (escapeList l) := by
  induction l with
  | nil => simp [escapeList, utf8Len]
  | cons c rest ih =>
      have hc := one_le_utf8Len_escapeChar c
      simp only [escapeList, utf8Len_append, List.length_cons]
      omega

theorem contents_le_encodedSize (q : ChatNotifyPacket) :
    utf8Len (escapeList q.contents.toList) ≤ encodedSize (Packets.ChatNotify q) := by
  show utf8Len (escapeList q.contents.toList) ≤
    utf8Len ("\x7b\"ChatNotify\":\x7b\"name\":".toList ++
      (quoteChars q.name ++
        (",\"contents\":".toList ++ (quoteChars q.contents ++ "\x7d\x7d".toList))))
  refine le_trans ?_ (le_utf8Len_append_left _ _)
  refine le_trans ?_ (le_utf8Len_append_left _ _)
  refine le_trans ?_ (le_utf8Len_append_left _ _)
  refine le_trans ?_ (le_utf8Len_append_right _ _)
  exact le_trans (le_utf8Len_append_right _ _) (le_utf8Len_cons _ _)

theorem oversized_big :
    MAX_PACKET_SIZE ≤ encodedSize (Packets.ChatNotify ⟨"a", bigText⟩) := by
  have h1 : utf8Len (escapeList bigText.toList) ≤
      encodedSize (Packets.ChatNotify ⟨"a", bigText⟩) :=
    contents_le_encodedSize ⟨"a", bigText⟩
  have h2 : bigText.toList.length ≤ utf8Len (escapeList bigText.toList) :=
    length_le_utf8Len_escapeList bigText.toList
  have h3 : bigText.toList.length = 2100 := by
    have hb : bigText.toList = List.replicate 2100 'a' := rfl
    rw [hb, List.length_replicate]
  rw [h3] at h2
  calc MAX_PACKET_SIZE ≤ 2100 := by norm_num [MAX_PACKET_SIZE]
    _ ≤ utf8Len (escapeList bigText.toList) := h2
    _ ≤ _ := h1

/-! ### Claim theorems -/

/-- Claim C1: for every sequence of events processed by the Session Registry,
the session table after processing contains exactly those addresses for which
a login was processed and has not since been followed by a logout for that
address or removal by a timer-tick sweep — the spec-side predicate
`specAlive`. -/
theorem registry_table_characterization (tr : List (Nat × Message)) (addr : Addr) :
    (findUser (processTrace tr).users addr).isSome = specAlive addr tr := by
  have hwf : Users.new.Nodupkeys := by
    simp [Users.Nodupkeys, Users.new]
  have h := lastPing_processFrom tr Users.new hwf addr
  have h0 : (findUser Users.new.users addr).map User.last_ping = none := by
    simp [Users.new, findUser]
  rw [h0] at h
  calc (findUser (processTrace tr).users addr).isSome
      = ((findUser (processFrom Users.new tr).users addr).map User.last_ping).isSome :=
        (Option.isSome_map').symm
    _ = (tr.foldl (specTrack addr) none).isSome := by rw [h]
    _ = specAlive addr tr := rfl

/-- Claim C4: a login at an already-registered address overwrites the name,
resets the liveness clock to the current time, leaves exactly one entry for
that address, and touches no other address. -/
theorem login_overwrites_existing (us : Users) (addr : Addr) (name : String) (now : Nat)
    (hw : us.Nodupkeys) (_h : (us.get_name addr).isSome = true) :
    findUser (us.add_user addr name now).users addr = some (User.new name now)
    ∧ ((us.add_user addr name now).users.map Prod.fst).count addr = 1
    ∧ ∀ a : Addr, a ≠ addr →
        findUser (us.add_user addr name now).users a = findUser us.users a := by
  refine ⟨?_, ?_, ?_⟩
  · show findUser (insertUser us.users addr (User.new name now)) addr = _
    rw [findUser_insertUser]
    simp
  · have hnd : ((insertUser us.users addr (User.new name now)).map Prod.fst).Nodup :=
      nodup_insertUser _ _ _ hw
    have hmem : addr ∈ (insertUser us.users addr (User.new name now)).map Prod.fst := by
      rw [mem_keys_insertUser]
      exact Or.inr rfl
    exact List.count_eq_one_of_mem hnd hmem
  · intro a ha
    show findUser (insertUser us.users addr (User.new name now)) a = _
    rw [findUser_insertUser]
    simp [ha]

/-- Witness for C4 at a concrete table: re-login of address 0 (already
registered in `cexUsers`) as "bob" at time 7. -/
theorem login_overwrites_existing_witness :
    findUser (cexUsers.add_user 0 "bob" 7).users 0 = some (User.new "bob" 7)
    ∧ ((cexUsers.add_user 0 "bob" 7).users.map Prod.fst).count 0 = 1
    ∧ findUser (cexUsers.add_user 0 "bob" 7).users 5 = findUser cexUsers.users 5 := by
  have h := login_overwrites_existing cexUsers 0 "bob" 7 (by decide) (by decide)
  exact ⟨h.1, h.2.1, h.2.2 5 (by decide)⟩

/-- Claim C5: a chat event from an address with no session is a silent no-op:
no datagram goes out and the table is unchanged. -/
theorem chat_without_session_noop (us : Users) (addr : Addr) (text : String) (now : Nat)
    (h : us.get_name addr = none) :
    step us now (Message.Chat addr text) = (us, []) := by
  simp [step, h]

/-- Witness for C5: a chat from unregistered address 1 against `cexUsers`. -/
theorem chat_without_session_noop_witness :
    step cexUsers 0 (Message.Chat 1 "hi") = (cexUsers, []) :=
  chat_without_session_noop cexUsers 1 "hi" 0 (by decide)

/-- Claim C7: encoding any message variant and decoding the result gives back
the original value, all string fields preserved exactly. -/
theorem packets_roundtrip (p : Packets) : fromJson (toJson p) = some p := by
  cases p <;> rfl

/-- Claim C9: a liveness ping for a registered address sets only that
session's liveness stamp (name untouched, other addresses untouched); for an
unregistered address everything is unchanged and no session is created; no
datagram is emitted either way. -/
theorem ping_updates_only_liveness (us : Users) (addr : Addr) (now : Nat) (a : Addr) :
    findUser (step us now (Message.PingReceived addr)).1.users a
      = (if a = addr then (findUser us.users a).map (fun u => u.update_ping now)
         else findUser us.users a)
    ∧ (step us now (Message.PingReceived addr)).2 = [] := by
  constructor
  · show findUser (updatePingL us.users addr now) a = _
    exact findUser_updatePingL us.users addr now a
  · rfl

/-- Claim C3: a timer tick first removes every session whose elapsed time
strictly exceeds the five second threshold, then sends exactly one ping to
each surviving address; an address evicted by this tick's sweep gets no
probe in this tick. -/
theorem tick_sweep_then_probe (us : Users) (now : Nat) (hw : us.Nodupkeys) :
    (∀ a : Addr, findUser (us.tick now).1.users a
        = (findUser us.users a).bind
            (fun u => if User.EXPIRED < now - u.last_ping then none else some u))
    ∧ (∀ a : Addr, (us.tick now).2.count ⟨a, Packets.Ping⟩
        = if (findUser (us.tick now).1.users a).isSome = true then 1 else 0)
    ∧ (∀ a : Addr, ∀ u : User, findUser us.users a = some u →
        User.EXPIRED < now - u.last_ping →
        (⟨a, Packets.Ping⟩ : Datagram) ∉ (us.tick now).2) := by
  have hfind : ∀ a : Addr, findUser (us.tick now).1.users a
      = (findUser us.users a).bind
          (fun u => if User.EXPIRED < now - u.last_ping then none else some u) := by
    intro a
    show findUser (retainLive us.users now) a = _
    rw [findUser_retainLive us.users now a hw]
    cases hf : findUser us.users a with
    | none => rfl
    | some u =>
        by_cases hp : User.EXPIRED < now - u.last_ping
        · simp [User.is_expired, hp]
        · simp [User.is_expired, hp]
  have hnd : ((retainLive us.users now).map Prod.fst).Nodup :=
    List.Nodup.sublist ((retainLive_sublist us.users now).map Prod.fst) hw
  have hcount : ∀ a : Addr, (us.tick now).2.count ⟨a, Packets.Ping⟩
      = if (findUser (us.tick now).1.users a).isSome = true then 1 else 0 := by
    intro a
    show ((retainLive us.users now).map (fun e => Datagram.mk e.1 Packets.Ping)).count
        ⟨a, Packets.Ping⟩ = _
    rw [count_map_datagram, count_keys_of_nodup _ _ hnd]
    have ht : (us.tick now).1.users = retainLive us.users now := rfl
    rw [ht]
    by_cases hm : a ∈ (retainLive us.users now).map Prod.fst
    · simp [hm, (findUser_isSome_iff_mem _ _).mpr hm]
    · have hns : ¬(findUser (retainLive us.users now) a).isSome = true := by
        intro hs
        exact hm ((findUser_isSome_iff_mem _ _).mp hs)
      simp [hm, hns]
  refine ⟨hfind, hcount, ?_⟩
  intro a u hu hp hmem
  have h0 : (us.tick now).2.count ⟨a, Packets.Ping⟩ = 0 := by
    rw [hcount a, hfind a, hu]
    simp [hp]
  have h1 : 0 < (us.tick now).2.count (⟨a, Packets.Ping⟩ : Datagram) :=
    List.count_pos_iff.mpr hmem
  omega

/-- Witness for C3 at `wUsers` and time 10: address 0 (stale since time 0)
is swept and probed no more, address 1 (alive at time 8) gets one ping. -/
theorem tick_sweep_then_probe_witness :
    findUser (wUsers.tick 10).1.users 0
      = (findUser wUsers.users 0).bind
          (fun u => if User.EXPIRED < 10 - u.last_ping then none else some u)
    ∧ (wUsers.tick 10).2.count ⟨1, Packets.Ping⟩
        = (if (findUser (wUsers.tick 10).1.users 1).isSome = true then 1 else 0)
    ∧ (⟨0, Packets.Ping⟩ : Datagram) ∉ (wUsers.tick 10).2 := by
  have h := tick_sweep_then_probe wUsers 10 (by decide)
  exact ⟨h.1 0, h.2.1 1, h.2.2 0 ⟨"a", 0⟩ (by decide) (by decide)⟩

/-- Claim C2 as amended: when a chat event is processed, a session with name
`name` exists at the sender, and the encoded notify is strictly below
`MAX_PACKET_SIZE`, the table is untouched and exactly one `ChatNotify` with
that name and text goes to every currently registered address — the sender
included — the recipient set being the table at the moment of processing. -/
theorem chat_broadcast_snapshot (us : Users) (addr : Addr) (name text : String) (now : Nat)
    (hw : us.Nodupkeys) (hn : us.get_name addr = some name)
    (hs : encodedSize (Packets.ChatNotify ⟨name, text⟩) < MAX_PACKET_SIZE) :
    (step us now (Message.Chat addr text)).1 = us
    ∧ (∀ a : Addr,
        (step us now (Message.Chat addr text)).2.count ⟨a, Packets.ChatNotify ⟨name, text⟩⟩
          = if a ∈ us.users.map Prod.fst then 1 else 0)
    ∧ (⟨addr, Packets.ChatNotify ⟨name, text⟩⟩ : Datagram)
        ∈ (step us now (Message.Chat addr text)).2 := by
  have hsend : us.send name text
      = SendOutcome.sent (us.users.map (fun e => ⟨e.1, Packets.ChatNotify ⟨name, text⟩⟩)) := by
    unfold Users.send
    rw [if_neg (not_le.mpr hs)]
  have h2 : (step us now (Message.Chat addr text)).2
      = us.users.map (fun e => ⟨e.1, Packets.ChatNotify ⟨name, text⟩⟩) := by
    simp [step, hn, hsend, SendOutcome.datagrams]
  refine ⟨by simp [step, hn], ?_, ?_⟩
  · intro a
    rw [h2, count_map_datagram, count_keys_of_nodup _ _ hw]
  · rw [h2]
    have hsome : (findUser us.users addr).isSome = true := by
      unfold Users.get_name at hn
      cases hf : findUser us.users addr <;> simp [hf] at hn ⊢
    have hmem : addr ∈ us.users.map Prod.fst :=
      (findUser_isSome_iff_mem _ _).mp hsome
    rcases List.mem_map.mp hmem with ⟨e, he, hfst⟩
    exact List.mem_map.mpr ⟨e, he, by simp [hfst]⟩

/-- Witness for the amended C2 at the two-session table `twoUsers`: "alice"
at address 0 chats "hi", address 1 gets exactly one notify and the sender
itself is among the recipients. -/
theorem chat_broadcast_snapshot_witness :
    (step twoUsers 5 (Message.Chat 0 "hi")).1 = twoUsers
    ∧ (step twoUsers 5 (Message.Chat 0 "hi")).2.count
        ⟨1, Packets.ChatNotify ⟨"alice", "hi"⟩⟩
        = (if (1 : Addr) ∈ twoUsers.users.map Prod.fst then 1 else 0)
    ∧ (⟨0, Packets.ChatNotify ⟨"alice", "hi"⟩⟩ : Datagram)
        ∈ (step twoUsers 5 (Message.Chat 0 "hi")).2 := by
  have h := chat_broadcast_snapshot twoUsers 0 "alice" "hi" 5 (by decide) (by decide)
    (by decide)
  exact ⟨h.1, h.2.1 1, h.2.2⟩

/-- Counterexample to C2 as frozen: at `cexUsers` a session with name "a"
exists at address 0, yet a chat whose notify encodes to 2048 bytes or more
delivers zero (not exactly one) `ChatNotify` to the registered address 0,
because `Users::send` refuses oversized packets. -/
theorem chat_oversized_counterexample :
    Users.get_name cexUsers 0 = some "a"
    ∧ (step cexUsers 0 (Message.Chat 0 bigText)).2.count
        ⟨0, Packets.ChatNotify ⟨"a", bigText⟩⟩ = 0 := by
  refine ⟨rfl, ?_⟩
  have hsend : cexUsers.send "a" bigText
      = SendOutcome.oversized (encodedSize (Packets.ChatNotify ⟨"a", bigText⟩)) := by
    unfold Users.send
    rw [if_pos oversized_big]
  have hg : cexUsers.get_name 0 = some "a" := rfl
  have h2 : (step cexUsers 0 (Message.Chat 0 bigText)).2
      = (cexUsers.send "a" bigText).datagrams := by
    simp only [step, hg]
  rw [h2, hsend]
  rfl

/-- Claim C6: an outbound `ChatNotify` whose encoding is 2048 bytes or more
is refused as oversized: nothing is transmitted to anyone and the message is
never truncated. -/
theorem send_refuses_oversized (us : Users) (name contents : String)
    (h : MAX_PACKET_SIZE ≤ encodedSize (Packets.ChatNotify ⟨name, contents⟩)) :
    us.send name contents
        = SendOutcome.oversized (encodedSize (Packets.ChatNotify ⟨name, contents⟩))
    ∧ (us.send name contents).datagrams = [] := by
  have hsend : us.send name contents
      = SendOutcome.oversized (encodedSize (Packets.ChatNotify ⟨name, contents⟩)) := by
    unfold Users.send
    rw [if_pos h]
  exact ⟨hsend, by rw [hsend]; rfl⟩

/-- Witness for C6: a 2100-character chat text pushes the notify encoding
past the limit and the send is refused. -/
theorem send_refuses_oversized_witness :
    Users.new.send "a" bigText
        = SendOutcome.oversized (encodedSize (Packets.ChatNotify ⟨"a", bigText⟩))
    ∧ (Users.new.send "a" bigText).datagrams = [] :=
  send_refuses_oversized Users.new "a" bigText oversized_big

/-- Claim C8: the ingress loop's datagram-to-event translation — zero-length
datagrams become logout events regardless of contents, undecodable bytes of
positive length produce no event, the three client-to-server variants map
one-to-one to their events, and a decoded `ChatNotify` is accepted but
ignored. -/
theorem ingress_event_translation (client : Addr) (size : Nat) (d : Option Packets)
    (n c : String) :
    ingressEvent client 0 d = some (Message.Logout client)
    ∧ (size ≠ 0 → ingressEvent client size none = none)
    ∧ (size ≠ 0 → ingressEvent client size (some (Packets.LoginReq ⟨n⟩))
        = some (Message.Login client n))
    ∧ (size ≠ 0 → ingressEvent client size (some (Packets.ChatReq ⟨c⟩))
        = some (Message.Chat client c))
    ∧ (size ≠ 0 → ingressEvent client size (some Packets.Ping)
        = some (Message.PingReceived client))
    ∧ (size ≠ 0 → ingressEvent client size (some (Packets.ChatNotify ⟨n, c⟩)) = none) := by
  refine ⟨by simp [ingressEvent], ?_, ?_, ?_, ?_, ?_⟩ <;>
    intro hz <;> simp [ingressEvent, hz]

/-- Witness for C8: the six translations at a concrete client and size. -/
theorem ingress_event_translation_witness :
    ingressEvent 0 0 none = some (Message.Logout 0)
    ∧ ingressEvent 0 3 none = none
    ∧ ingressEvent 0 3 (some (Packets.LoginReq ⟨"n"⟩)) = some (Message.Login 0 "n")
    ∧ ingressEvent 0 3 (some (Packets.ChatReq ⟨"c"⟩)) = some (Message.Chat 0 "c")
    ∧ ingressEvent 0 3 (some Packets.Ping) = some (Message.PingReceived 0)
    ∧ ingressEvent 0 3 (some (Packets.ChatNotify ⟨"n", "c"⟩)) = none := by
  have h := ingress_event_translation 0 3 none "n" "c"
  exact ⟨h.1, h.2.1 (by decide), h.2.2.1 (by decide), h.2.2.2.1 (by decide),
    h.2.2.2.2.1 (by decide), h.2.2.2.2.2 (by decide)⟩

theorem getD_take (l : List Nat) (n i : Nat) (h : i < n) :
    (l.take n).getD i 0 = l.getD i 0 := by
  induction l generalizing n i with
  | nil => simp
  | cons x rest ih =>
      cases n with
      | zero => omega
      | succ m =>
          cases i with
          | zero => simp
          | succ j =>
              simp only [List.take_succ_cons, List.getD_cons_succ]
              exact ih m j (by omega)

/-- Claim C10: with the receive buffer fixed at `MAX_PACKET_SIZE` bytes, the
decoder sees at most the first 2048 bytes of any datagram: the reported size
never exceeds the buffer (the slice stays in bounds), the bytes seen are the
datagram's leading bytes unchanged, and a datagram that fits is seen whole. -/
theorem recv_buffer_truncation (dgram : List Nat) :
    (readSlice dgram).length ≤ MAX_PACKET_SIZE
    ∧ recv_from MAX_PACKET_SIZE dgram ≤ MAX_PACKET_SIZE
    ∧ (∀ i : Nat, i < (readSlice dgram).length →
        (readSlice dgram).getD i 0 = dgram.getD i 0)
    ∧ (dgram.length ≤ MAX_PACKET_SIZE → readSlice dgram = dgram) := by
  have hlen : (readSlice dgram).length
      = min (recv_from MAX_PACKET_SIZE dgram) dgram.length := by
    simp [readSlice]
  refine ⟨?_, ?_, ?_, ?_⟩
  · have hr : recv_from MAX_PACKET_SIZE dgram ≤ MAX_PACKET_SIZE :=
      min_le_right _ _
    omega
  · exact min_le_right _ _
  · intro i hi
    exact getD_take dgram _ i (by omega)
  · intro hfit
    show dgram.take (recv_from MAX_PACKET_SIZE dgram) = dgram
    have hr : recv_from MAX_PACKET_SIZE dgram = dgram.length := min_eq_left hfit
    rw [hr, List.take_length]

/-- Witness for C10: the parts with hypotheses, at the datagram [1, 2, 3]. -/
theorem recv_buffer_truncation_witness :
    (readSlice [1, 2, 3]).getD 0 0 = [1, 2, 3].getD 0 0
    ∧ readSlice [1, 2, 3] = [1, 2, 3] := by
  have h := recv_buffer_truncation [1, 2, 3]
  exact ⟨h.2.2.1 0 (by decide), h.2.2.2 (by decide)⟩
